import Mathlib

/-!
Verification development for the multi-engine OCR text-recovery and
disambiguation pipeline of IntelliDoc-AI
(backend/app/services/advanced_ocr_service.py).

Texts are modelled as lists of characters.  Python string predicates
(isdigit, isalpha, isupper, the regex classes \w and \s) are modelled over
the ASCII range, matching their behaviour on the ASCII texts the pipeline
manipulates.  Python floats appearing in the service (confidence values,
the fixed scoring constants 0.2/0.3/0.4, the 0.8 consensus threshold) are
exact small decimals and are modelled as rationals.
-/

/-- Texts and words are lists of characters. -/
abbrev W := List Char

/-- Python whitespace class (str.split and the regex class \s). -/
def pyIsSpace (c : Char) : Bool :=
  c == ' ' || c == '\t' || c == '\n' || c == '\r' || c == '\x0b' || c == '\x0c'

/-- Python regex class \w (ASCII range): letters, digits and underscore. -/
def isWordChar (c : Char) : Bool := c.isAlpha || c.isDigit || c == '_'

/-- Python str.lower, character-wise (ASCII). -/
def lowerW (w : W) : W := w.map Char.toLower

/-- True when some character of the word is a digit. -/
def hasDigit (w : W) : Bool := w.any Char.isDigit

/-- Python str.replace for single characters. -/
def replaceChar (a b : Char) (w : W) : W := w.map fun c => if c == a then b else c

/-- Python str.strip with an explicit character predicate: remove matching
characters from both ends. -/
def stripBoth (p : Char → Bool) (w : W) : W :=
  ((w.dropWhile p).reverse.dropWhile p).reverse

/-- Python substring containment (the in operator on strings). -/
def isSubstring : W → W → Bool
  | p, [] => p.isEmpty
  | p, c :: t => p.isPrefixOf (c :: t) || isSubstring p t

/-- Python str.split() worker: accumulates the current word while scanning. -/
def splitWsAux : List Char → W → List W
  | [], cur => if cur.isEmpty then [] else [cur]
  | c :: t, cur =>
    if pyIsSpace c then
      (if cur.isEmpty then splitWsAux t [] else cur :: splitWsAux t [])
    else splitWsAux t (cur ++ [c])

/-- Python str.split(): whitespace-delimited words, no empties. -/
def splitWs (t : W) : List W := splitWsAux t []

/-- Python ' '.join. -/
def joinSp : List W → W
  | [] => []
  | [w] => w
  | w :: ws => w ++ ' ' :: joinSp ws

/-- The curated common-surname list of _is_alphanumeric_entity_context. -/
def common_surnames : List W :=
  [ "smith".toList, "johnson".toList, "williams".toList, "brown".toList,
    "jones".toList, "garcia".toList, "miller".toList, "davis".toList,
    "rodriguez".toList, "martinez".toList, "hernandez".toList, "lopez".toList,
    "gonzalez".toList, "wilson".toList, "anderson".toList, "thomas".toList,
    "taylor".toList, "moore".toList, "jackson".toList, "martin".toList,
    "lee".toList, "perez".toList, "thompson".toList, "white".toList,
    "harris".toList, "sanchez".toList, "clark".toList, "ramirez".toList,
    "lewis".toList, "robinson".toList, "walker".toList, "young".toList,
    "allen".toList, "king".toList, "wright".toList, "scott".toList,
    "torres".toList, "nguyen".toList, "hill".toList, "flores".toList,
    "green".toList, "adams".toList, "nelson".toList, "baker".toList,
    "hall".toList, "rivera".toList, "campbell".toList, "mitchell".toList,
    "carter".toList, "roberts".toList, "gomez".toList, "phillips".toList,
    "evans".toList, "turner".toList, "diaz".toList, "parker".toList,
    "cruz".toList, "edwards".toList, "collins".toList, "reyes".toList,
    "stewart".toList, "morris".toList, "morales".toList, "murphy".toList,
    "cook".toList, "rogers".toList, "gutierrez".toList, "ortiz".toList,
    "morgan".toList, "cooper".toList, "peterson".toList, "bailey".toList,
    "reed".toList, "kelly".toList, "howard".toList, "ramos".toList,
    "kim".toList, "cox".toList, "ward".toList, "richardson".toList,
    "watson".toList, "brooks".toList, "chavez".toList, "wood".toList,
    "james".toList, "bennett".toList, "gray".toList, "mendoza".toList,
    "ruiz".toList, "hughes".toList, "price".toList, "alvarez".toList,
    "castillo".toList, "sanders".toList, "patel".toList, "myers".toList,
    "long".toList, "ross".toList, "foster".toList, "jimenez".toList,
    "gore".toList ]

/-- Sentence-starter words guarded at index 0 by the entity heuristic. -/
def common_sentence_starters : List W :=
  [ "all".toList, "also".toList, "although".toList, "always".toList,
    "already".toList, "almost".toList, "alone".toList ]

/-- Business-action verbs of pattern 1 of the entity heuristic. -/
def entity_indicators : List W :=
  [ "provides".toList, "offers".toList, "delivers".toList, "focuses".toList,
    "emphasizes".toList, "cultivates".toList, "seeks".toList, "values".toList,
    "maintains".toList, "ensures".toList, "specializes".toList,
    "operates".toList, "manages".toList, "develops".toList, "creates".toList ]

/-- Entity-indicating prepositions of pattern 2 of the entity heuristic. -/
def entity_prepositions : List W :=
  [ "at".toList, "with".toList, "for".toList, "by".toList, "from".toList,
    "through".toList ]

/-- Business-context follow words of pattern 2 of the entity heuristic. -/
def business_follow_words : List W :=
  [ "company".toList, "corporation".toList, "provides".toList,
    "offers".toList, "delivers".toList, "focuses".toList, "cultivates".toList ]

/-- Model/identifier markers of pattern 3 of the entity heuristic. -/
def model_indicators : List W :=
  [ "model".toList, "version".toList, "code".toList, "product".toList,
    "system".toList, "type".toList ]

/-- Technology/business terms of pattern 4 of the entity heuristic. -/
def tech_context_words : List W :=
  [ "system".toList, "model".toList, "version".toList, "code".toList,
    "product".toList, "solution".toList, "platform".toList, "service".toList,
    "technology".toList, "software".toList, "hardware".toList ]

/-- Pronoun-verb markers used by _is_pronoun_context. -/
def pronoun_verbs : List W :=
  [ "am".toList, "was".toList, "will".toList, "have".toList, "had".toList,
    "can".toList, "should".toList, "would".toList, "could".toList ]

/-- Numeric-context markers used by _is_numeric_context. -/
def numeric_indicators : List W :=
  [ "number".toList, "code".toList, "id".toList, "phone".toList,
    "fax".toList, "suite".toList, "street".toList, "#".toList ]

/-- Common-word whitelist of _is_likely_valid_english_word. -/
def common_words : List W :=
  [ "welcome".toList, "come".toList, "some".toList, "home".toList,
    "time".toList, "make".toList, "take".toList, "place".toList,
    "people".toList, "like".toList, "life".toList, "world".toList,
    "great".toList, "little".toList, "old".toList, "small".toList,
    "large".toList, "good".toList, "new".toList, "first".toList,
    "last".toList, "long".toList, "right".toList, "left".toList,
    "high".toList, "low".toList, "big".toList, "early".toList,
    "late".toList, "all".toList, "also".toList, "already".toList,
    "almost".toList, "alone".toList, "although".toList, "always".toList ]

/-- English morpheme substrings rewarded by _score_word_likelihood. -/
def common_patterns : List W :=
  [ "ing".toList, "tion".toList, "ed".toList, "er".toList, "ly".toList,
    "al".toList, "ic".toList, "able".toList, "ful".toList ]

/-- Unnatural glyph runs penalized by _score_word_likelihood. -/
def unusual_patterns : List W :=
  [ "1l".toList, "l1".toList, "I1".toList, "1I".toList, "ll1".toList,
    "1ll".toList ]

/-- Next token of the context, as computed in _is_alphanumeric_entity_context
(empty string when out of range). -/
def nextWord (ctx : List W) (i : Nat) : W :=
  if i + 1 < ctx.length then ctx.getD (i+1) [] else []

/-- Previous token of the context (empty string when out of range). -/
def prevWord (ctx : List W) (i : Nat) : W :=
  if 0 < i && decide (i - 1 < ctx.length) then ctx.getD (i-1) [] else []

/-- Surname guard of _is_alphanumeric_entity_context: the next token is
capitalized and its lowercase form is a curated common surname. -/
def guardSurname (ctx : List W) (i : Nat) : Bool :=
  let nw := nextWord ctx i
  !nw.isEmpty && (nw.headD ' ').isUpper && common_surnames.contains (lowerW nw)

/-- Sentence-starter guard of _is_alphanumeric_entity_context. -/
def guardStarter (w : W) (_ctx : List W) (i : Nat) : Bool :=
  i == 0 && common_sentence_starters.contains (lowerW w)

/-- Pattern 1 of _is_alphanumeric_entity_context: short word followed within
two tokens by a business-action verb. -/
def entityPattern1 (w : W) (ctx : List W) (i : Nat) : Bool :=
  decide (w.length ≤ 3) &&
    (let next2 := if i + 1 < ctx.length then (ctx.drop (i+1)).take 2 else []
     let txt := lowerW (joinSp next2)
     entity_indicators.any fun ind => isSubstring ind txt)

/-- Pattern 2 of _is_alphanumeric_entity_context: word after an
entity-indicating preposition with a business-context follow word. -/
def entityPattern2 (w : W) (ctx : List W) (i : Nat) : Bool :=
  entity_prepositions.contains (lowerW (prevWord ctx i)) &&
  decide (w.length ≤ 4) &&
    (let nws := if i + 1 < ctx.length then (ctx.drop (i+1)).take 2 else []
     nws.any fun x => business_follow_words.contains (lowerW x))

/-- Pattern 3 of _is_alphanumeric_entity_context: preceded within two tokens
by a model/identifier marker (substring match on the joined window). -/
def entityPattern3 (ctx : List W) (i : Nat) : Bool :=
  let pws := (ctx.drop (i-2)).take (i - (i-2))
  let txt := lowerW (joinSp pws)
  model_indicators.any fun ind => isSubstring ind txt

/-- Pattern 4 of _is_alphanumeric_entity_context: mixed-case short word inside
a window of plus/minus two tokens containing a technology/business term. -/
def entityPattern4 (w : W) (ctx : List W) (i : Nat) : Bool :=
  decide (w.length ≤ 4) && w.any Char.isUpper && w.any Char.isLower &&
    (let sur := (ctx.drop (i-2)).take (i + 3 - (i-2))
     let txt := lowerW (joinSp sur)
     tech_context_words.any fun tw => isSubstring tw txt)

/-- Shallow embedding of _is_alphanumeric_entity_context: the sequential
guard/pattern cascade of the source. -/
def is_alphanumeric_entity_context (w : W) (ctx : List W) (i : Nat) : Bool :=
  if guardSurname ctx i then false
  else if guardStarter w ctx i then false
  else if entityPattern1 w ctx i then true
  else if entityPattern2 w ctx i then true
  else if entityPattern3 ctx i then true
  else if entityPattern4 w ctx i then true
  else false

/-- Shallow embedding of _is_numeric_context: some context token contains a
numeric-context marker as a substring of its lowercase form. -/
def is_numeric_context (ctx : List W) : Bool :=
  ctx.any fun w => numeric_indicators.any fun ind => isSubstring ind (lowerW w)

/-- Shallow embedding of _is_pronoun_context. -/
def is_pronoun_context (ctx : List W) (i : Nat) : Bool :=
  if i + 1 < ctx.length then
    ((ctx.drop (i+1)).take 2).any fun w => pronoun_verbs.contains (lowerW w)
  else false

/-- Shallow embedding of _is_letter_context. -/
def is_letter_context (ctx : List W) (i : Nat) : Bool :=
  let pw := prevWord ctx i
  let nw := nextWord ctx i
  (!pw.isEmpty && (pw.getLastD ' ').isAlpha) ||
  (!nw.isEmpty && (nw.headD ' ').isAlpha)

/-- The clean_word of _disambiguate_multi_char_patterns: the word with every
non-word character removed. -/
def mcClean (w : W) : W := w.filter isWordChar

/-- The punctuation slice of _disambiguate_multi_char_patterns: the tail slice
of the word whose length is the number of removed characters. -/
def mcPunct (w : W) : W :=
  if (mcClean w).length < w.length then w.drop (mcClean w).length else []

/-- Shallow embedding of _disambiguate_multi_char_patterns. -/
def disambiguate_multi_char_patterns (w : W) (ctx : List W) (i : Nat) : W :=
  let clean := mcClean w
  let punct := mcPunct w
  if is_alphanumeric_entity_context clean ctx i && decide (clean.length ≤ 4) &&
      (clean.getLast? == some 'l') && ((clean.dropLast ++ ['1']) != clean) then
    (clean.dropLast ++ ['1']) ++ punct
  else if clean == "Il".toList && is_numeric_context ctx then "11".toList ++ punct
  else if clean == "ll".toList && is_numeric_context ctx then "11".toList ++ punct
  else if clean == "Ol".toList && is_numeric_context ctx then "01".toList ++ punct
  else if clean == "lO".toList && is_numeric_context ctx then "10".toList ++ punct
  else w

/-- Digit-normalization block of _disambiguate_alphanumeric: inside a word
that already contains a digit, l, L (and I when longer than one character)
become 1 and O becomes 0. -/
def anMutate (w : W) : W :=
  if hasDigit w then
    let a := replaceChar 'L' '1' (replaceChar 'l' '1' w)
    let b := if decide (1 < a.length) then replaceChar 'I' '1' a else a
    replaceChar 'O' '0' b
  else w

/-- Shallow embedding of _disambiguate_alphanumeric. -/
def disambiguate_alphanumeric (w : W) (ctx : List W) : W :=
  if hasDigit w && !hasDigit ctx.flatten then w
  else
    let w1 := anMutate w
    let hnn := ctx.any fun n => n != w1 && hasDigit n
    if hnn && (lowerW w1 == ['l'] || lowerW w1 == ['i'] || lowerW w1 == ['o']) then
      if lowerW w1 == ['l'] then ['1']
      else if lowerW w1 == ['i'] then ['1']
      else if lowerW w1 == ['o'] then ['0']
      else w1
    else w1

/-- Shallow embedding of _is_likely_valid_english_word. -/
def is_likely_valid_english_word (w : W) : Bool :=
  let stripSet : List Char :=
    ['.', ',', '!', '?', ';', ':', '"', '(', ')', '[', ']',
     Char.ofNat 123, Char.ofNat 125]
  let clean := stripBoth (fun c => stripSet.contains c) (lowerW w)
  common_words.contains clean

/-- Shallow embedding of _score_word_likelihood (scores are exact multiples
of one tenth, modelled as rationals). -/
def score_word_likelihood (w : W) : ℚ :=
  let s1 : ℚ :=
    if hasDigit (w.drop 1).dropLast &&
        !(w.all fun c => c.isAlpha || c.isDigit) then 0 - 3/10 else 0
  let s2 := common_patterns.foldl
    (fun acc p => if isSubstring p (lowerW w) then acc + 2/10 else acc) s1
  unusual_patterns.foldl
    (fun acc p => if isSubstring p w then acc - 4/10 else acc) s2

/-- Candidate variations generated by _prefer_english_word_formation. -/
def prefVariations (w : W) : List W :=
  if pyIsUpperStr w || pyIsLowerStr w || decide (w.length ≤ 3) then
    [w]
    ++ (if (lowerW w).contains 'l' then
          [replaceChar 'L' '1' (replaceChar 'l' '1' w)]
          ++ (if w.length == 1 then [replaceChar 'L' 'I' (replaceChar 'l' 'I' w)]
              else [])
        else [])
    ++ (if w.contains '1' then
          [replaceChar '1' 'l' w]
          ++ (if w.length == 1 then [replaceChar '1' 'I' w] else [])
        else [])
    ++ (if w.contains 'I' && w.length == 1 then
          [replaceChar 'I' 'l' w, replaceChar 'I' '1' w]
        else [])
  else [w]
where
  /-- Python str.isupper: at least one cased character, all cased upper. -/
  pyIsUpperStr (w : W) : Bool :=
    w.any Char.isAlpha && w.all fun c => !c.isAlpha || c.isUpper
  /-- Python str.islower: at least one cased character, all cased lower. -/
  pyIsLowerStr (w : W) : Bool :=
    w.any Char.isAlpha && w.all fun c => !c.isAlpha || c.isLower

/-- Scan of the variation loop of _prefer_english_word_formation: keep the
first variation scoring strictly above the running best. -/
def pickBest (best : W) (bestScore : ℚ) : List W → W
  | [] => best
  | v :: vs =>
    if bestScore < score_word_likelihood v then
      pickBest v (score_word_likelihood v) vs
    else pickBest best bestScore vs

/-- Shallow embedding of _prefer_english_word_formation. -/
def prefer_english_word_formation (w : W) : W :=
  if !("l1Il".toList.any fun c => w.contains c) then w
  else if is_likely_valid_english_word w then w
  else pickBest w (score_word_likelihood w) (prefVariations w)

/-- Shallow embedding of _disambiguate_linguistic_patterns. -/
def disambiguate_linguistic_patterns (w : W) (ctx : List W) (i : Nat) : W :=
  if w.length == 1 then
    let ch := (lowerW w).headD ' '
    if (ch == 'l' || ch == '1') && is_pronoun_context ctx i then ['I']
    else if (ch == 'l' || ch == 'i') && is_numeric_context ctx then ['1']
    else if (ch == '1' || ch == 'i') && is_letter_context ctx i then ['l']
    else w
  else
    let corrected := prefer_english_word_formation w
    if corrected != w then corrected else w

/-- Shallow embedding of _disambiguate_positional. -/
def disambiguate_positional (w : W) (ctx : List W) (i : Nat) : W :=
  if (i == 0 || (0 < i && decide (i - 1 < ctx.length) &&
        ((ctx.getD (i-1) []).getLast? == some '.'))) &&
      (lowerW w == ['l'] || lowerW w == ['1']) && w.length == 1 then
    ['I']
  else if decide (w.length ≤ 3) && (lowerW w == ['l'] || lowerW w == ['i']) &&
      is_alphanumeric_entity_context w ctx i then
    ['1']
  else w

/-- Shallow embedding of _disambiguate_word: the rule cascade with its single
early exit after the multi-character pattern rule. -/
def disambiguate_word (w : W) (ctx : List W) (i : Nat) : W :=
  let w0 := disambiguate_multi_char_patterns w ctx i
  if w0 != w && hasDigit w0 then w0
  else
    let w1 := disambiguate_alphanumeric w0 ctx
    let w2 := disambiguate_linguistic_patterns w1 ctx i
    disambiguate_positional w2 ctx i

/-- Decomposition performed by the regex match of
_intelligent_character_disambiguation: maximal leading non-word run, core,
maximal trailing non-word run. -/
def stripCore (w : W) : W × W × W :=
  let pre := w.takeWhile fun c => !isWordChar c
  let rest := w.dropWhile fun c => !isWordChar c
  let suf := (rest.reverse.takeWhile fun c => !isWordChar c).reverse
  let core := (rest.reverse.dropWhile fun c => !isWordChar c).reverse
  (pre, core, suf)

/-- Per-token step of _intelligent_character_disambiguation: strip the
affixes, disambiguate the core, reattach the affixes. -/
def disambToken (all : List W) (i : Nat) (w : W) : W :=
  let pcs := stripCore w
  if pcs.2.1 != [] then pcs.1 ++ disambiguate_word pcs.2.1 all i ++ pcs.2.2
  else w

/-- The enumerated word loop of _intelligent_character_disambiguation. -/
def disambWords (all : List W) : Nat → List W → List W
  | _, [] => []
  | i, w :: ws => disambToken all i w :: disambWords all (i+1) ws

/-- Shallow embedding of _intelligent_character_disambiguation. -/
def intelligent_character_disambiguation (text : W) : W :=
  if text == [] then text
  else if splitWs text == [] then text
  else joinSp (disambWords (splitWs text) 0 (splitWs text))

/-- Shallow embedding of _context_aware_corrections: disambiguation followed
by the O-to-0 pass on digit-bearing words. -/
def context_aware_corrections (text : W) : W :=
  let t := intelligent_character_disambiguation text
  let ws := splitWs t
  joinSp (ws.map fun w =>
    if w.contains 'O' && hasDigit w then replaceChar 'O' '0' w else w)

/-- The fixed dictionary of _fix_common_words. -/
def word_corrections : List (W × W) :=
  [ ("environrnent".toList, "environment".toList),
    ("developrnent".toList, "development".toList),
    ("managernent".toList, "management".toList),
    ("requirernents".toList, "requirements".toList),
    ("experiénce".toList, "experience".toList),
    ("cornpany".toList, "company".toList),
    ("rnust".toList, "must".toList),
    ("worI<".toList, "work".toList),
    ("worlç".toList, "work".toList),
    ("skílls".toList, "skills".toList),
    ("leam".toList, "team".toList),
    ("proíect".toList, "project".toList),
    ("proiect".toList, "project".toList) ]

/-- Word-character test on an optional character (out-of-range positions of a
regex word boundary count as non-word). -/
def isWordOpt : Option Char → Bool
  | none => false
  | some c => isWordChar c

/-- Regex word boundary between two adjacent positions. -/
def wordBoundary (a b : Option Char) : Bool := isWordOpt a != isWordOpt b

/-- Scanner for one entry of _fix_common_words: case-insensitive whole-word
replacement, non-overlapping and left to right, boundaries evaluated on the
original text. -/
def subWordAux (wrong correct : W) : Nat → Option Char → W → W
  | 0, _, t => t
  | _+1, _, [] => []
  | fuel+1, prev, c :: t =>
    let seg := (c :: t).take wrong.length
    if !wrong.isEmpty && lowerW seg == lowerW wrong &&
        wordBoundary prev (some c) &&
        wordBoundary seg.getLast? ((c :: t).drop wrong.length).head? then
      correct ++ subWordAux wrong correct fuel seg.getLast? ((c :: t).drop wrong.length)
    else c :: subWordAux wrong correct fuel (some c) t

/-- Shallow embedding of _fix_common_words. -/
def fix_common_words (text : W) : W :=
  word_corrections.foldl
    (fun t p => subWordAux p.1 p.2 (t.length + 1) none t) text

/-- Scanner for the hyphenation regex of post_process_text:
word, whitespace, hyphen, optional whitespace, word becomes word-word. -/
def fixHyphen : Nat → W → W
  | 0, t => t
  | _+1, [] => []
  | fuel+1, c :: t =>
    if isWordChar c then
      let w1 := (c :: t).takeWhile isWordChar
      let r1 := (c :: t).dropWhile isWordChar
      let sp := r1.takeWhile pyIsSpace
      let r2 := r1.dropWhile pyIsSpace
      if !sp.isEmpty && r2.head? == some '-' then
        let r3 := (r2.drop 1).dropWhile pyIsSpace
        let w2 := r3.takeWhile isWordChar
        if !w2.isEmpty then (w1 ++ '-' :: w2) ++ fixHyphen fuel (r3.drop w2.length)
        else c :: fixHyphen fuel t
      else c :: fixHyphen fuel t
    else c :: fixHyphen fuel t

/-- Scanner for the whitespace-collapsing regex of post_process_text: each
maximal whitespace run becomes a single space. -/
def collapseWs : Nat → W → W
  | 0, t => t
  | _+1, [] => []
  | fuel+1, c :: t =>
    if pyIsSpace c then ' ' :: collapseWs fuel (t.dropWhile pyIsSpace)
    else c :: collapseWs fuel t

/-- Scanner for the first regex of _clean_punctuation: remove whitespace
before a punctuation character. -/
def cleanPunct1 : Nat → W → W
  | 0, t => t
  | _+1, [] => []
  | fuel+1, c :: t =>
    if pyIsSpace c then
      let rest := (c :: t).dropWhile pyIsSpace
      match rest.head? with
      | some d =>
        if [',', '.', ';', ':', '!', '?'].contains d then
          d :: cleanPunct1 fuel (rest.drop 1)
        else c :: cleanPunct1 fuel t
      | none => c :: cleanPunct1 fuel t
    else c :: cleanPunct1 fuel t

/-- Scanner for the second regex of _clean_punctuation: insert a space
between a sentence terminator and a following capital letter. -/
def cleanPunct2 : Nat → W → W
  | 0, t => t
  | _+1, [] => []
  | fuel+1, c :: t =>
    if ['.', '!', '?'].contains c then
      match t.head? with
      | some d =>
        if d.isUpper then c :: ' ' :: d :: cleanPunct2 fuel (t.drop 1)
        else c :: cleanPunct2 fuel t
      | none => c :: cleanPunct2 fuel t
    else c :: cleanPunct2 fuel t

/-- Scanner for the quotation regex of _clean_punctuation: trim whitespace
just inside a pair of double quotes. -/
def cleanQuotes : Nat → W → W
  | 0, t => t
  | _+1, [] => []
  | fuel+1, c :: t =>
    if c == '"' then
      let inside := t.takeWhile fun d => d != '"'
      let rest := t.dropWhile fun d => d != '"'
      if rest.head? == some '"' then
        '"' :: (stripBoth pyIsSpace inside ++ '"' :: cleanQuotes fuel (rest.drop 1))
      else c :: cleanQuotes fuel t
    else c :: cleanQuotes fuel t

/-- Shallow embedding of _clean_punctuation: the three regex passes in source
order. -/
def clean_punctuation (text : W) : W :=
  let t1 := cleanPunct1 (text.length + 1) text
  let t2 := cleanPunct2 (t1.length + 1) t1
  cleanQuotes (t2.length + 1) t2

/-- Shallow embedding of post_process_text, the public process operation of
the TextPostProcessor (the corrections dictionary declared at its top is
dead code in the source and is omitted; the words argument is unused by the
source and omitted). -/
def post_process_text (text : W) : W :=
  if text == [] then text
  else
    let t1 := fixHyphen (text.length + 1) text
    let t2 := collapseWs (t1.length + 1) t1
    let t3 := context_aware_corrections t2
    let t4 := fix_common_words t3
    stripBoth pyIsSpace (clean_punctuation t4)

/-- Word-level OCR token as built by _extract_word_data. -/
structure WordData where
  text : W
  confidence : ℚ
  left : Int
  top : Int
  width : Int
  height : Int
deriving DecidableEq

/-- Per-engine OCR result dictionary shape. -/
structure OcrResult where
  text : W
  confidence : ℚ
  method : W
  words : List WordData
  error : Option W
deriving DecidableEq

/-- Placeholder result used only as the default of positional lookups in
statements about the selection order. -/
def dummyResult : OcrResult := ⟨[], 0, [], [], none⟩

/-- Python max with a key function keeps the first of equal elements:
the running best is replaced only on strictly larger confidence. -/
def pymaxConf (b : OcrResult) : List OcrResult → OcrResult
  | [] => b
  | r :: rs => pymaxConf (if b.confidence < r.confidence then r else b) rs

/-- Candidate score used by _create_consensus_text. -/
def consensusScore (r : OcrResult) : ℚ :=
  r.confidence * ((r.text.length : ℚ) / 1000)

/-- One step of the scoring loop of _create_consensus_text: keep the first
candidate scoring strictly above the running best. -/
def consensusStep (acc : ℚ × W) (r : OcrResult) : ℚ × W :=
  if r.text != [] then
    if acc.1 < consensusScore r then (consensusScore r, r.text) else acc
  else acc

/-- Shallow embedding of _create_consensus_text. -/
def create_consensus_text (results : List OcrResult) : W :=
  if results.length < 2 then
    match results with
    | [] => []
    | r :: _ => r.text
  else
    let texts := (results.filter fun r => r.text != []).map (·.text)
    if texts == [] then []
    else (results.foldl consensusStep (0, texts.headD [])).2

/-- Shallow embedding of the result-selection logic of
extract_text_multi_engine; the engine invocations themselves are external
calls, so the function is modelled over the list of per-engine results. -/
def extract_text_multi_engine (results : List OcrResult) : OcrResult :=
  match results with
  | [] => ⟨[], 0, "none".toList, [], some "No OCR engines available".toList⟩
  | r :: rs =>
    let best := pymaxConf r rs
    if best.confidence < 8/10 && decide (1 < (r :: rs).length) then
      let ct := create_consensus_text (r :: rs)
      if ct != [] then { best with text := ct, method := "consensus".toList }
      else best
    else best

/-- Shallow embedding of _calculate_confidence: the average of the strictly
positive integer confidences divided by 100, or 0 when there are none. -/
def calculate_confidence (confs : List Int) : ℚ :=
  let cs := confs.filter fun c => decide (0 < c)
  if cs.length == 0 then 0
  else ((cs.map (Int.cast : ℤ → ℚ)).sum / (cs.length : ℚ)) / 100

/-- One row of the parallel tesseract data arrays consumed by
_extract_word_data. -/
structure TessRow where
  text : W
  conf : Int
  left : Int
  top : Int
  width : Int
  height : Int
deriving DecidableEq

/-- Shallow embedding of _extract_word_data: keep rows whose stripped text is
non-empty, with confidence divided by 100. -/
def extract_word_data (rows : List TessRow) : List WordData :=
  rows.filterMap fun r =>
    if stripBoth pyIsSpace r.text != [] then
      some ⟨r.text, (r.conf : ℚ) / 100, r.left, r.top, r.width, r.height⟩
    else none

/-- Image dimensions; the pixel-level OpenCV/PIL operations of
enhance_image_for_ocr (bilateral filter, CLAHE, morphology, thresholding,
dilation, component removal, sharpen, contrast) all preserve the array
shape, so the pipeline is modelled by its effect on the dimensions. -/
structure PImage where
  width : Nat
  height : Nat
deriving DecidableEq

/-- The scaling step of enhance_image_for_ocr; division by zero on a
degenerate image raises inside the try block, modelled as none. -/
def enhanceScale (w h : Nat) : Option (Nat × Nat) :=
  if w < 1000 || h < 1000 then
    if max w h == 0 then none
    else
      let factor := max 2 (1500 / max w h)
      some (w * factor, h * factor)
  else some (w, h)

/-- Shallow embedding of enhance_image_for_ocr: any internal fault (the
fault flag, or the division by zero of the scale step) falls into the
except branch, which returns the original image unchanged. -/
def enhance_image_for_ocr (img : PImage) (_aggressive : Bool) (fault : Bool) :
    PImage :=
  if fault then img
  else
    match enhanceScale img.width img.height with
    | none => img
    | some (w, h) => ⟨w, h⟩

/-- Helper for C1: the word and context of the early-exit counterexample. -/
theorem disambiguate_word_early_exit (w : W) (ctx : List W) (i : Nat)
    (hne : disambiguate_multi_char_patterns w ctx i ≠ w)
    (hd : hasDigit (disambiguate_multi_char_patterns w ctx i) = true) :
    disambiguate_word w ctx i = disambiguate_multi_char_patterns w ctx i := by
  unfold disambiguate_word
  simp [bne_iff_ne, hne, hd]

/-- C1 witness: on the word Al in the context Al provides, the
multi-character pattern rule produces the digit-bearing A1 and the cascade
returns it unchanged, skipping the remaining rules. -/
theorem disambiguate_word_early_exit_witness :
    disambiguate_multi_char_patterns "Al".toList
        ["Al".toList, "provides".toList] 0 ≠ "Al".toList ∧
    hasDigit (disambiguate_multi_char_patterns "Al".toList
        ["Al".toList, "provides".toList] 0) = true ∧
    disambiguate_word "Al".toList ["Al".toList, "provides".toList] 0 =
      disambiguate_multi_char_patterns "Al".toList
        ["Al".toList, "provides".toList] 0 :=
  ⟨by decide, by decide,
    disambiguate_word_early_exit _ _ _ (by decide) (by decide)⟩

/-- C1 counterexample: on the single word l in the context (l am 5), the
alphanumeric rule changes the word to the digit-bearing 1, yet the cascade
does not stop there: the linguistic rule subsequently rewrites it to I, so
a change-with-digit produced by a rule after the first does not end the
cascade. -/
theorem disambiguate_word_no_general_early_exit_cex :
    disambiguate_alphanumeric
        (disambiguate_multi_char_patterns "l".toList
          ["l".toList, "am".toList, "5".toList] 0)
        ["l".toList, "am".toList, "5".toList] ≠ "l".toList ∧
    hasDigit (disambiguate_alphanumeric
        (disambiguate_multi_char_patterns "l".toList
          ["l".toList, "am".toList, "5".toList] 0)
        ["l".toList, "am".toList, "5".toList]) = true ∧
    disambiguate_word "l".toList ["l".toList, "am".toList, "5".toList] 0 ≠
      disambiguate_alphanumeric
        (disambiguate_multi_char_patterns "l".toList
          ["l".toList, "am".toList, "5".toList] 0)
        ["l".toList, "am".toList, "5".toList] := by
  decide

/-- C2 (amended): process is not idempotent; the character disambiguation
oscillates with period 2 on the text Al provides, which process maps to
A1 provides and back. -/
theorem process_oscillates_period_two :
    post_process_text "Al provides".toList = "A1 provides".toList ∧
    post_process_text "A1 provides".toList = "Al provides".toList := by
  with_unfolding_all decide

/-- C2 counterexample: applying process twice to Al provides does not agree
with applying it once, refuting idempotence. -/
theorem process_not_idempotent_cex :
    post_process_text (post_process_text "Al provides".toList) ≠
      post_process_text "Al provides".toList := by
  with_unfolding_all decide

/-- C4 counterexample: on the text (code I-l) the second token I-l is
rewritten to I1l, so the interior non-word character hyphen of the input
token does not reappear in the output token. -/
theorem interior_punctuation_lost_cex :
    intelligent_character_disambiguation "code I-l".toList =
      "code I1l".toList ∧
    '-' ∈ (splitWs "code I-l".toList).getD 1 [] ∧
    '-' ∉ (splitWs (intelligent_character_disambiguation
        "code I-l".toList)).getD 1 [] := by
  decide

/-- C5 counterexample: the word xy alone in its context is not followed by a
capitalized common surname (the surname guard is false), yet the heuristic
classifies it as not an alphanumeric-entity context. -/
theorem entity_context_guard_only_cex :
    guardSurname ["xy".toList] 0 = false ∧
    is_alphanumeric_entity_context "xy".toList ["xy".toList] 0 = false := by
  decide

/-- C5 (amended): the first two listed conditions of the heuristic are
negative guards; the heuristic returns true exactly when neither guard fires
and at least one of the four positive patterns holds. -/
theorem entity_context_guard_structure (w : W) (ctx : List W) (i : Nat) :
    is_alphanumeric_entity_context w ctx i =
      (!guardSurname ctx i && !guardStarter w ctx i &&
        (entityPattern1 w ctx i || entityPattern2 w ctx i ||
         entityPattern3 ctx i || entityPattern4 w ctx i)) := by
  unfold is_alphanumeric_entity_context
  cases guardSurname ctx i <;> cases guardStarter w ctx i <;>
    cases entityPattern1 w ctx i <;> cases entityPattern2 w ctx i <;>
      cases entityPattern3 ctx i <;> cases entityPattern4 w ctx i <;> simp

/-- C6 counterexample: two engines, best confidence 1/10 below the 8/10
threshold, but every candidate text is empty, so the consensus text is empty
and the method tag is left as the best engine's, not consensus. -/
theorem consensus_not_marked_on_empty_cex :
    (pymaxConf ⟨[], 1/10, "m1".toList, [], none⟩
        [⟨[], 1/20, "m2".toList, [], none⟩]).confidence < 8/10 ∧
    1 < ([⟨[], 1/10, "m1".toList, [], none⟩,
          ⟨[], 1/20, "m2".toList, [], none⟩] : List OcrResult).length ∧
    (extract_text_multi_engine
        [⟨[], 1/10, "m1".toList, [], none⟩,
         ⟨[], 1/20, "m2".toList, [], none⟩]).method ≠ "consensus".toList := by
  with_unfolding_all decide

/-- C7 counterexample: a single engine that produced empty text with zero
confidence is returned with its own method tag, not the tag none. -/
theorem all_empty_keeps_engine_method_cex :
    (∀ r ∈ ([⟨[], 0, "tesseract_advanced".toList, [], none⟩] :
        List OcrResult), r.text = [] ∧ r.confidence = 0) ∧
    (extract_text_multi_engine
        [⟨[], 0, "tesseract_advanced".toList, [], none⟩]).method ≠
      "none".toList := by
  with_unfolding_all decide

/-- Dimension bound of the scale step of enhance_image_for_ocr. -/
theorem enhanceScale_ge (w h w' h' : Nat)
    (hs : enhanceScale w h = some (w', h')) : w ≤ w' ∧ h ≤ h' := by
  unfold enhanceScale at hs
  split at hs
  · split at hs
    · exact absurd hs (by simp)
    · simp only [Option.some.injEq, Prod.mk.injEq] at hs
      obtain ⟨hw, hh⟩ := hs
      have hf : 0 < max 2 (1500 / max w h) :=
        lt_of_lt_of_le (by norm_num) (le_max_left _ _)
      subst hw hh
      exact ⟨Nat.le_mul_of_pos_right _ hf, Nat.le_mul_of_pos_right _ hf⟩
  · simp only [Option.some.injEq, Prod.mk.injEq] at hs
    obtain ⟨hw, hh⟩ := hs
    subst hw hh
    exact ⟨le_rfl, le_rfl⟩

/-- C9: enhance_image_for_ocr returns the original image unchanged on any
internal fault, and in every case the returned dimensions are each at least
the input dimensions. -/
theorem enhance_fault_identity_and_dims (img : PImage)
    (aggressive fault : Bool) :
    enhance_image_for_ocr img aggressive true = img ∧
    img.width ≤ (enhance_image_for_ocr img aggressive fault).width ∧
    img.height ≤ (enhance_image_for_ocr img aggressive fault).height := by
  refine ⟨rfl, ?_, ?_⟩ <;>
    cases fault <;>
      simp only [enhance_image_for_ocr, Bool.false_eq_true, if_false,
        if_true, le_refl] <;>
      rcases hs : enhanceScale img.width img.height with _ | ⟨w', h'⟩ <;>
        simp only [le_refl] <;>
        exact (by
          first
          | exact (enhanceScale_ge _ _ _ _ hs).1
          | exact (enhanceScale_ge _ _ _ _ hs).2)

/-- The selected best result is one of the inputs. -/
theorem pymaxConf_mem (b : OcrResult) (rs : List OcrResult) :
    pymaxConf b rs ∈ b :: rs := by
  induction rs generalizing b with
  | nil => simp [pymaxConf]
  | cons r rs ih =>
    simp only [pymaxConf]
    by_cases hc : b.confidence < r.confidence
    · simp only [if_pos hc]
      rcases List.mem_cons.mp (ih r) with h | h
      · simp [h]
      · simp [List.mem_cons, h]
    · simp only [if_neg hc]
      rcases List.mem_cons.mp (ih b) with h | h
      · simp [h]
      · simp [List.mem_cons, h]

/-- The selected best result has the maximal confidence. -/
theorem pymaxConf_le (b : OcrResult) (rs : List OcrResult) :
    ∀ x ∈ b :: rs, x.confidence ≤ (pymaxConf b rs).confidence := by
  induction rs generalizing b with
  | nil =>
    intro x hx
    rcases List.mem_cons.mp hx with h | h
    · subst h; simp [pymaxConf]
    · simp at h
  | cons r rs ih =>
    intro x hx
    simp only [pymaxConf]
    have hb : b.confidence ≤
        (if b.confidence < r.confidence then r else b).confidence := by
      split <;> simp_all [le_of_lt]
    have hr : r.confidence ≤
        (if b.confidence < r.confidence then r else b).confidence := by
      split
      · exact le_rfl
      · exact le_of_not_lt (by assumption)
    have hhead := ih (if b.confidence < r.confidence then r else b)
      (if b.confidence < r.confidence then r else b) (List.mem_cons_self _ _)
    rcases List.mem_cons.mp hx with h | h
    · subst h; exact le_trans hb hhead
    · rcases List.mem_cons.mp h with h' | h'
      · subst h'; exact le_trans hr hhead
      · exact ih _ x (List.mem_cons_of_mem _ h')

/-- The selected best result is the first input attaining the maximal
confidence (ties are broken first-seen). -/
theorem pymaxConf_first (b : OcrResult) (rs : List OcrResult) :
    ∃ j, j < (b :: rs).length ∧
      (b :: rs).getD j dummyResult = pymaxConf b rs ∧
      ∀ k, k < j →
        ((b :: rs).getD k dummyResult).confidence <
          (pymaxConf b rs).confidence := by
  induction rs generalizing b with
  | nil => exact ⟨0, by simp, by simp [pymaxConf], fun k hk => absurd hk (by omega)⟩
  | cons r rs ih =>
    simp only [pymaxConf]
    by_cases hc : b.confidence < r.confidence
    · obtain ⟨j, hj, hget, hlt⟩ := ih r
      simp only [if_pos hc]
      cases j with
      | zero =>
        refine ⟨1, by simp, by simpa using hget, ?_⟩
        intro k hk
        interval_cases k
        rw [List.getD_cons_zero]
        rw [List.getD_cons_zero] at hget
        exact lt_of_lt_of_le hc (le_of_eq (congrArg OcrResult.confidence hget))
      | succ j' =>
        refine ⟨j' + 2, by simpa using hj, by simpa using hget, ?_⟩
        intro k hk
        match k with
        | 0 =>
          rw [List.getD_cons_zero]
          have h0 := hlt 0 (by omega)
          rw [List.getD_cons_zero] at h0
          exact lt_trans hc h0
        | 1 =>
          rw [List.getD_cons_succ, List.getD_cons_zero]
          have h0 := hlt 0 (by omega)
          rw [List.getD_cons_zero] at h0
          exact h0
        | (m + 2) =>
          rw [List.getD_cons_succ, List.getD_cons_succ]
          have hm := hlt (m + 1) (by omega)
          rw [List.getD_cons_succ] at hm
          exact hm
    · obtain ⟨j, hj, hget, hlt⟩ := ih b
      simp only [if_neg hc]
      cases j with
      | zero =>
        refine ⟨0, by simp, by simpa using hget, fun k hk => absurd hk (by omega)⟩
      | succ j' =>
        refine ⟨j' + 2, by simpa using hj, by simpa using hget, ?_⟩
        intro k hk
        match k with
        | 0 =>
          rw [List.getD_cons_zero]
          have h0 := hlt 0 (by omega)
          rw [List.getD_cons_zero] at h0
          exact h0
        | 1 =>
          rw [List.getD_cons_succ, List.getD_cons_zero]
          have h0 := hlt 0 (by omega)
          rw [List.getD_cons_zero] at h0
          exact lt_of_le_of_lt (le_of_not_lt hc) h0
        | (m + 2) =>
          rw [List.getD_cons_succ, List.getD_cons_succ]
          have hm := hlt (m + 1) (by omega)
          rw [List.getD_cons_succ] at hm
          exact hm

/-- Invariant of the scoring loop of _create_consensus_text: the running
best score never decreases, the held text always comes from a processed
candidate (unless the accumulator was never replaced), and every processed
non-empty candidate scores at most the running best. -/
theorem consensusStep_fold_spec (l : List OcrResult) :
    ∀ acc : ℚ × W, 0 ≤ acc.1 →
      0 ≤ (l.foldl consensusStep acc).1 ∧
      acc.1 ≤ (l.foldl consensusStep acc).1 ∧
      (l.foldl consensusStep acc = acc ∨
        ∃ x ∈ l, x.text = (l.foldl consensusStep acc).2 ∧
          (l.foldl consensusStep acc).1 = consensusScore x) ∧
      ∀ y ∈ l, y.text ≠ [] →
        consensusScore y ≤ (l.foldl consensusStep acc).1 := by
  induction l with
  | nil => intro acc hacc; simp [hacc]
  | cons r l ih =>
    intro acc hacc
    simp only [List.foldl_cons]
    have hstep0 : 0 ≤ (consensusStep acc r).1 := by
      unfold consensusStep
      split
      · split
        · simp only
          exact le_of_lt (lt_of_le_of_lt hacc (by assumption))
        · exact hacc
      · exact hacc
    have hstep_le : acc.1 ≤ (consensusStep acc r).1 := by
      unfold consensusStep
      split
      · split
        · exact le_of_lt (by assumption)
        · exact le_rfl
      · exact le_rfl
    have hstep_or : consensusStep acc r = acc ∨
        (r.text ≠ [] ∧ (consensusStep acc r).2 = r.text ∧
          (consensusStep acc r).1 = consensusScore r) := by
      unfold consensusStep
      split
      · split
        · right
          refine ⟨?_, rfl, rfl⟩
          simp_all [bne_iff_ne]
        · left; rfl
      · left; rfl
    have hstep_r : r.text ≠ [] → consensusScore r ≤ (consensusStep acc r).1 := by
      intro hne
      unfold consensusStep
      rw [if_pos (by simp [bne_iff_ne, hne])]
      split
      · exact le_rfl
      · exact le_of_not_lt (by assumption)
    obtain ⟨h0, hle, hor, hall⟩ := ih (consensusStep acc r) hstep0
    refine ⟨h0, le_trans hstep_le hle, ?_, ?_⟩
    · rcases hor with heq | ⟨x, hx, hxt, hxs⟩
      · rw [heq]
        rcases hstep_or with h | ⟨hne, ht, hs⟩
        · left; exact h
        · right; exact ⟨r, List.mem_cons_self _ _, ht.symm, hs⟩
      · right; exact ⟨x, List.mem_cons_of_mem _ hx, hxt, hxs⟩
    · intro y hy hyne
      rcases List.mem_cons.mp hy with h | h
      · subst h; exact le_trans (hstep_r hyne) hle
      · exact hall y h hyne

/-- The head of the candidate text list comes from an input with non-empty
text. -/
theorem texts_head_mem (l : List OcrResult)
    (hne : (l.filter fun r => r.text != []) ≠ []) :
    ∃ x ∈ l, x.text ≠ [] ∧
      ((l.filter fun r => r.text != []).map (·.text)).headD [] = x.text := by
  cases hfl : l.filter (fun r => r.text != []) with
  | nil => exact absurd hfl hne
  | cons a as =>
    have ha : a ∈ l.filter fun r => r.text != [] := by
      rw [hfl]; exact List.mem_cons_self _ _
    obtain ⟨hmem, hprop⟩ := List.mem_filter.mp ha
    exact ⟨a, hmem, by simpa [bne_iff_ne] using hprop, rfl⟩

/-- Every consensus score is nonnegative when confidences are. -/
theorem consensusScore_nonneg (r : OcrResult) (h : 0 ≤ r.confidence) :
    0 ≤ consensusScore r := by
  unfold consensusScore
  positivity

/-- An empty-text candidate has consensus score zero. -/
theorem consensusScore_empty (r : OcrResult) (h : r.text = []) :
    consensusScore r = 0 := by
  unfold consensusScore
  rw [h]
  norm_num

/-- When at least two results exist but no candidate text is non-empty, the
consensus text is empty. -/
theorem create_consensus_empty_of_no_texts (l : List OcrResult)
    (h2 : 2 ≤ l.length) (hf : (l.filter fun r => r.text != []) = []) :
    create_consensus_text l = [] := by
  unfold create_consensus_text
  rw [if_neg (by omega), if_pos (by simp [hf])]

/-- When every result text is empty the consensus text is empty. -/
theorem create_consensus_all_empty (r0 : OcrResult) (rs : List OcrResult)
    (h : ∀ x ∈ r0 :: rs, x.text = []) :
    create_consensus_text (r0 :: rs) = [] := by
  by_cases h2 : (r0 :: rs).length < 2
  · unfold create_consensus_text
    rw [if_pos h2]
    exact h r0 (List.mem_cons_self _ _)
  · refine create_consensus_empty_of_no_texts _ (by omega) ?_
    exact List.filter_eq_nil_iff.mpr fun a ha => by simp [bne_iff_ne, h a ha]

/-- When at least two results exist and some candidate text is non-empty,
the consensus text is the text of a candidate whose score
confidence times character-length over 1000 is maximal. -/
theorem create_consensus_best (l : List OcrResult) (h2 : 2 ≤ l.length)
    (hconf : ∀ x ∈ l, 0 ≤ x.confidence)
    (hne : (l.filter fun r => r.text != []) ≠ []) :
    ∃ x ∈ l, x.text = create_consensus_text l ∧
      ∀ y ∈ l, consensusScore y ≤ consensusScore x := by
  have hval : create_consensus_text l =
      (l.foldl consensusStep
        (0, ((l.filter fun r => r.text != []).map (·.text)).headD [])).2 := by
    unfold create_consensus_text
    rw [if_neg (by omega), if_neg (by simp [hne])]
  obtain ⟨h0, hle, hor, hall⟩ := consensusStep_fold_spec l
    (0, ((l.filter fun r => r.text != []).map (·.text)).headD []) (le_refl 0)
  rcases hor with heq | ⟨x, hx, hxt, hxs⟩
  · obtain ⟨x, hx, hxne, hxeq⟩ := texts_head_mem l hne
    refine ⟨x, hx, ?_, ?_⟩
    · rw [hval, heq]; exact hxeq.symm
    · intro y hy
      have hxpos : 0 ≤ consensusScore x := consensusScore_nonneg x (hconf x hx)
      by_cases hyt : y.text = []
      · rw [consensusScore_empty y hyt]; exact hxpos
      · have := hall y hy hyt
        rw [heq] at this
        exact le_trans this hxpos
  · refine ⟨x, hx, by rw [hval, hxt], ?_⟩
    intro y hy
    by_cases hyt : y.text = []
    · rw [consensusScore_empty y hyt, ← hxs]; exact h0
    · rw [← hxs]; exact hall y hy hyt

/-- Shape of the selection result when the consensus branch fires with a
non-empty consensus text. -/
theorem extract_consensus_branch (r0 : OcrResult) (rs : List OcrResult)
    (hlow : (pymaxConf r0 rs).confidence < 8/10) (hlen : rs ≠ [])
    (hct : create_consensus_text (r0 :: rs) ≠ []) :
    extract_text_multi_engine (r0 :: rs) =
      { pymaxConf r0 rs with text := create_consensus_text (r0 :: rs), method := "consensus".toList } := by
  have hlen2 : 1 < (r0 :: rs).length := by
    cases rs with
    | nil => exact absurd rfl hlen
    | cons a as => simp
  simp only [extract_text_multi_engine]
  rw [if_pos (by simp only [Bool.and_eq_true, decide_eq_true_eq]; exact ⟨hlow, hlen2⟩)]
  rw [if_pos (by simp [bne_iff_ne, hct])]

/-- Shape of the selection result when the consensus branch fires but the
consensus text is empty. -/
theorem extract_consensus_branch_empty (r0 : OcrResult) (rs : List OcrResult)
    (hlow : (pymaxConf r0 rs).confidence < 8/10) (hlen : rs ≠ [])
    (hct : create_consensus_text (r0 :: rs) = []) :
    extract_text_multi_engine (r0 :: rs) = pymaxConf r0 rs := by
  have hlen2 : 1 < (r0 :: rs).length := by
    cases rs with
    | nil => exact absurd rfl hlen
    | cons a as => simp
  simp only [extract_text_multi_engine]
  rw [if_pos (by simp only [Bool.and_eq_true, decide_eq_true_eq]; exact ⟨hlow, hlen2⟩)]
  rw [if_neg (by simp [hct])]

/-- C6 (amended): the selector picks the first result with maximal
confidence; when the best confidence is below 8/10, more than one engine
contributed and the consensus text is non-empty, the selection returns that
consensus text with method consensus, and the consensus text is the text of
a candidate maximizing confidence times character-length over 1000 (when
the consensus text is empty the best result is returned unchanged, per the
frame theorem of claim C10). -/
theorem consensus_selection_amended (r0 : OcrResult) (rs : List OcrResult)
    (hconf : ∀ x ∈ r0 :: rs, 0 ≤ x.confidence) :
    pymaxConf r0 rs ∈ r0 :: rs ∧
    (∀ x ∈ r0 :: rs, x.confidence ≤ (pymaxConf r0 rs).confidence) ∧
    (∃ j, j < (r0 :: rs).length ∧
      (r0 :: rs).getD j dummyResult = pymaxConf r0 rs ∧
      ∀ k, k < j → ((r0 :: rs).getD k dummyResult).confidence <
        (pymaxConf r0 rs).confidence) ∧
    ((pymaxConf r0 rs).confidence < 8/10 → rs ≠ [] →
      create_consensus_text (r0 :: rs) ≠ [] →
      (extract_text_multi_engine (r0 :: rs)).text =
        create_consensus_text (r0 :: rs) ∧
      (extract_text_multi_engine (r0 :: rs)).method = "consensus".toList ∧
      ∃ x ∈ r0 :: rs, x.text = create_consensus_text (r0 :: rs) ∧
        ∀ y ∈ r0 :: rs, consensusScore y ≤ consensusScore x) := by
  refine ⟨pymaxConf_mem r0 rs, pymaxConf_le r0 rs, pymaxConf_first r0 rs, ?_⟩
  intro hlow hlen hct
  have hext := extract_consensus_branch r0 rs hlow hlen hct
  refine ⟨by rw [hext], by rw [hext], ?_⟩
  have h2 : 2 ≤ (r0 :: rs).length := by
    cases rs with
    | nil => exact absurd rfl hlen
    | cons a as => simp
  have hfne : ((r0 :: rs).filter fun r => r.text != []) ≠ [] := by
    intro hf
    exact hct (create_consensus_empty_of_no_texts _ h2 hf)
  exact create_consensus_best _ h2 hconf hfne

/-- C6 witness: with candidates (ab, confidence 1/2) and (abcd, confidence
3/10) the best confidence 1/2 is below 8/10 and the consensus branch picks
abcd, whose score 3/10 times 4/1000 beats 1/2 times 2/1000. -/
theorem consensus_selection_amended_witness :
    (extract_text_multi_engine
        [⟨"ab".toList, 1/2, "m1".toList, [], none⟩,
         ⟨"abcd".toList, 3/10, "m2".toList, [], none⟩]).text =
      create_consensus_text
        [⟨"ab".toList, 1/2, "m1".toList, [], none⟩,
         ⟨"abcd".toList, 3/10, "m2".toList, [], none⟩] ∧
    (extract_text_multi_engine
        [⟨"ab".toList, 1/2, "m1".toList, [], none⟩,
         ⟨"abcd".toList, 3/10, "m2".toList, [], none⟩]).method =
      "consensus".toList ∧
    ∃ x ∈ ([⟨"ab".toList, 1/2, "m1".toList, [], none⟩,
            ⟨"abcd".toList, 3/10, "m2".toList, [], none⟩] : List OcrResult),
      x.text = create_consensus_text
        [⟨"ab".toList, 1/2, "m1".toList, [], none⟩,
         ⟨"abcd".toList, 3/10, "m2".toList, [], none⟩] ∧
      ∀ y ∈ ([⟨"ab".toList, 1/2, "m1".toList, [], none⟩,
              ⟨"abcd".toList, 3/10, "m2".toList, [], none⟩] : List OcrResult),
        consensusScore y ≤ consensusScore x :=
  (consensus_selection_amended
      ⟨"ab".toList, 1/2, "m1".toList, [], none⟩
      [⟨"abcd".toList, 3/10, "m2".toList, [], none⟩]
      (by with_unfolding_all decide)).2.2.2
    (by with_unfolding_all decide)
    (by simp)
    (by with_unfolding_all decide)

/-- C7 (amended): an empty result list yields empty text, confidence 0 and
method none; when all engines produced empty text with zero confidence the
selection still returns empty text and confidence 0, but carries the best
engine's method tag rather than none, and no exception is modelled since
the selection is a total function. -/
theorem no_usable_result_amended :
    extract_text_multi_engine [] =
      ⟨[], 0, "none".toList, [], some "No OCR engines available".toList⟩ ∧
    ∀ (r0 : OcrResult) (rs : List OcrResult),
      (∀ x ∈ r0 :: rs, x.text = [] ∧ x.confidence = 0) →
      (extract_text_multi_engine (r0 :: rs)).text = [] ∧
      (extract_text_multi_engine (r0 :: rs)).confidence = 0 := by
  refine ⟨rfl, ?_⟩
  intro r0 rs h
  obtain ⟨hbt, hbc⟩ := h _ (pymaxConf_mem r0 rs)
  have hct : create_consensus_text (r0 :: rs) = [] :=
    create_consensus_all_empty r0 rs fun x hx => (h x hx).1
  by_cases hlen : rs = []
  · subst hlen
    simp only [extract_text_multi_engine]
    rw [if_neg (by simp)]
    exact ⟨hbt, hbc⟩
  · have hlow : (pymaxConf r0 rs).confidence < 8/10 := by
      rw [hbc]; norm_num
    rw [extract_consensus_branch_empty r0 rs hlow hlen hct]
    exact ⟨hbt, hbc⟩

/-- C7 witness: a single zero-confidence empty result is surfaced as empty
text with confidence 0 (its method tag stays tess, per the counterexample
theorem). -/
theorem no_usable_result_amended_witness :
    (extract_text_multi_engine
        [⟨[], 0, "tess".toList, [], none⟩]).text = [] ∧
    (extract_text_multi_engine
        [⟨[], 0, "tess".toList, [], none⟩]).confidence = 0 :=
  no_usable_result_amended.2 ⟨[], 0, "tess".toList, [], none⟩ []
    (by with_unfolding_all decide)

/-- C10: when the consensus path fires, only the text and method fields can
change; confidence, the word list and the error note remain those of the
highest-confidence engine, and the text is replaced (with method marked
consensus) exactly when the consensus text is non-empty. -/
theorem consensus_frame_effect (r0 : OcrResult) (rs : List OcrResult)
    (hlow : (pymaxConf r0 rs).confidence < 8/10) (hlen : rs ≠ []) :
    (extract_text_multi_engine (r0 :: rs)).confidence =
      (pymaxConf r0 rs).confidence ∧
    (extract_text_multi_engine (r0 :: rs)).words = (pymaxConf r0 rs).words ∧
    (extract_text_multi_engine (r0 :: rs)).error = (pymaxConf r0 rs).error ∧
    (create_consensus_text (r0 :: rs) ≠ [] →
      (extract_text_multi_engine (r0 :: rs)).text =
        create_consensus_text (r0 :: rs) ∧
      (extract_text_multi_engine (r0 :: rs)).method = "consensus".toList) ∧
    (create_consensus_text (r0 :: rs) = [] →
      extract_text_multi_engine (r0 :: rs) = pymaxConf r0 rs) := by
  by_cases hct : create_consensus_text (r0 :: rs) = []
  · rw [extract_consensus_branch_empty r0 rs hlow hlen hct]
    exact ⟨rfl, rfl, rfl, fun hcon => absurd hct hcon, fun _ => rfl⟩
  · rw [extract_consensus_branch r0 rs hlow hlen hct]
    exact ⟨rfl, rfl, rfl, fun _ => ⟨rfl, rfl⟩, fun hcon => absurd hcon hct⟩

/-- C10 witness: with candidates (xy, confidence 2/5, with a word list and
an error note) and (pqrs, confidence 1/5), the consensus replaces the text
and method while the confidence, word list and error note of the best
engine survive. -/
theorem consensus_frame_effect_witness :
    (extract_text_multi_engine
        [⟨"xy".toList, 2/5, "e1".toList, [⟨"xy".toList, 2/5, 0, 0, 3, 4⟩],
            some "note".toList⟩,
         ⟨"pqrs".toList, 1/5, "e2".toList, [], none⟩]).confidence =
      (pymaxConf
        ⟨"xy".toList, 2/5, "e1".toList, [⟨"xy".toList, 2/5, 0, 0, 3, 4⟩],
          some "note".toList⟩
        [⟨"pqrs".toList, 1/5, "e2".toList, [], none⟩]).confidence ∧
    (extract_text_multi_engine
        [⟨"xy".toList, 2/5, "e1".toList, [⟨"xy".toList, 2/5, 0, 0, 3, 4⟩],
            some "note".toList⟩,
         ⟨"pqrs".toList, 1/5, "e2".toList, [], none⟩]).words =
      (pymaxConf
        ⟨"xy".toList, 2/5, "e1".toList, [⟨"xy".toList, 2/5, 0, 0, 3, 4⟩],
          some "note".toList⟩
        [⟨"pqrs".toList, 1/5, "e2".toList, [], none⟩]).words ∧
    (extract_text_multi_engine
        [⟨"xy".toList, 2/5, "e1".toList, [⟨"xy".toList, 2/5, 0, 0, 3, 4⟩],
            some "note".toList⟩,
         ⟨"pqrs".toList, 1/5, "e2".toList, [], none⟩]).error =
      (pymaxConf
        ⟨"xy".toList, 2/5, "e1".toList, [⟨"xy".toList, 2/5, 0, 0, 3, 4⟩],
          some "note".toList⟩
        [⟨"pqrs".toList, 1/5, "e2".toList, [], none⟩]).error ∧
    (create_consensus_text
        [⟨"xy".toList, 2/5, "e1".toList, [⟨"xy".toList, 2/5, 0, 0, 3, 4⟩],
            some "note".toList⟩,
         ⟨"pqrs".toList, 1/5, "e2".toList, [], none⟩] ≠ [] →
      (extract_text_multi_engine
          [⟨"xy".toList, 2/5, "e1".toList, [⟨"xy".toList, 2/5, 0, 0, 3, 4⟩],
              some "note".toList⟩,
           ⟨"pqrs".toList, 1/5, "e2".toList, [], none⟩]).text =
        create_consensus_text
          [⟨"xy".toList, 2/5, "e1".toList, [⟨"xy".toList, 2/5, 0, 0, 3, 4⟩],
              some "note".toList⟩,
           ⟨"pqrs".toList, 1/5, "e2".toList, [], none⟩] ∧
      (extract_text_multi_engine
          [⟨"xy".toList, 2/5, "e1".toList, [⟨"xy".toList, 2/5, 0, 0, 3, 4⟩],
              some "note".toList⟩,
           ⟨"pqrs".toList, 1/5, "e2".toList, [], none⟩]).method =
        "consensus".toList) ∧
    (create_consensus_text
        [⟨"xy".toList, 2/5, "e1".toList, [⟨"xy".toList, 2/5, 0, 0, 3, 4⟩],
            some "note".toList⟩,
         ⟨"pqrs".toList, 1/5, "e2".toList, [], none⟩] = [] →
      extract_text_multi_engine
          [⟨"xy".toList, 2/5, "e1".toList, [⟨"xy".toList, 2/5, 0, 0, 3, 4⟩],
              some "note".toList⟩,
           ⟨"pqrs".toList, 1/5, "e2".toList, [], none⟩] =
        pymaxConf
          ⟨"xy".toList, 2/5, "e1".toList, [⟨"xy".toList, 2/5, 0, 0, 3, 4⟩],
            some "note".toList⟩
          [⟨"pqrs".toList, 1/5, "e2".toList, [], none⟩]) :=
  consensus_frame_effect
    ⟨"xy".toList, 2/5, "e1".toList, [⟨"xy".toList, 2/5, 0, 0, 3, 4⟩],
      some "note".toList⟩
    [⟨"pqrs".toList, 1/5, "e2".toList, [], none⟩]
    (by with_unfolding_all decide) (by simp)

/-- Closed form of _calculate_confidence. -/
theorem calculate_confidence_eq (confs : List Int) :
    calculate_confidence confs =
      if (confs.filter fun c => decide (0 < c)) = [] then 0
      else (((confs.filter fun c => decide (0 < c)).map
          (Int.cast : ℤ → ℚ)).sum /
        (((confs.filter fun c => decide (0 < c)).length : ℕ) : ℚ)) / 100 := by
  unfold calculate_confidence
  by_cases h : (confs.filter fun c => decide (0 < c)) = [] <;>
    simp [h, List.length_eq_zero]

/-- C8: with engine token confidences at most 100, the per-attempt
confidence of _calculate_confidence lies in the unit interval, equals the
average of the strictly positive confidences divided by 100 (stated as the
equivalent product identity), is exactly 0 for an attempt with no valid
token, and every token confidence built by _extract_word_data from
confidences in the range 0 to 100 lies in the unit interval. -/
theorem confidence_unit_interval (confs : List Int) (rows : List TessRow)
    (hc : ∀ c ∈ confs, c ≤ 100)
    (hr : ∀ r ∈ rows, 0 ≤ r.conf ∧ r.conf ≤ 100) :
    0 ≤ calculate_confidence confs ∧ calculate_confidence confs ≤ 1 ∧
    ((confs.filter fun c => decide (0 < c)) = [] →
      calculate_confidence confs = 0) ∧
    ((confs.filter fun c => decide (0 < c)) ≠ [] →
      calculate_confidence confs *
        (((confs.filter fun c => decide (0 < c)).length : ℕ) : ℚ) * 100 =
        ((confs.filter fun c => decide (0 < c)).map
          (Int.cast : ℤ → ℚ)).sum) ∧
    ∀ t ∈ extract_word_data rows, 0 ≤ t.confidence ∧ t.confidence ≤ 1 := by
  have hwords : ∀ t ∈ extract_word_data rows,
      0 ≤ t.confidence ∧ t.confidence ≤ 1 := by
    intro t ht
    obtain ⟨r, hrmem, heq⟩ := List.mem_filterMap.mp ht
    obtain ⟨hr0, hr100⟩ := hr r hrmem
    split at heq
    · injection heq with heq'
      subst heq'
      constructor
      · apply div_nonneg _ (by norm_num)
        exact_mod_cast hr0
      · rw [div_le_one (by norm_num : (0:ℚ) < 100)]
        exact_mod_cast hr100
    · exact absurd heq (by simp)
  have hpos : ∀ x ∈ confs.filter (fun c => decide (0 < c)), (0 : ℤ) < x :=
    fun x hx => by simpa using (List.mem_filter.mp hx).2
  have hmem : ∀ x ∈ confs.filter (fun c => decide (0 < c)), x ∈ confs :=
    fun x hx => (List.mem_filter.mp hx).1
  have hsum0 :
      0 ≤ ((confs.filter fun c => decide (0 < c)).map
        (Int.cast : ℤ → ℚ)).sum := by
    apply List.sum_nonneg
    intro q hq
    obtain ⟨x, hx, rfl⟩ := List.mem_map.mp hq
    exact_mod_cast le_of_lt (hpos x hx)
  have hsumle :
      ((confs.filter fun c => decide (0 < c)).map
          (Int.cast : ℤ → ℚ)).sum ≤
        (((confs.filter fun c => decide (0 < c)).length : ℕ) : ℚ) * 100 := by
    have hb : ∀ q ∈ (confs.filter fun c => decide (0 < c)).map
        (Int.cast : ℤ → ℚ), q ≤ 100 := by
      intro q hq
      obtain ⟨x, hx, rfl⟩ := List.mem_map.mp hq
      exact_mod_cast hc x (hmem x hx)
    have := List.sum_le_card_nsmul
      ((confs.filter fun c => decide (0 < c)).map (Int.cast : ℤ → ℚ)) 100 hb
    simpa [nsmul_eq_mul, List.length_map] using this
  by_cases hnil : (confs.filter fun c => decide (0 < c)) = []
  · rw [calculate_confidence_eq, if_pos hnil]
    exact ⟨le_rfl, by norm_num, fun _ => rfl, fun h => absurd hnil h, hwords⟩
  · have hlen : (0 : ℚ) <
        (((confs.filter fun c => decide (0 < c)).length : ℕ) : ℚ) := by
      have := List.length_pos.mpr hnil
      exact_mod_cast this
    rw [calculate_confidence_eq, if_neg hnil]
    refine ⟨?_, ?_, fun h => absurd h hnil, fun _ => ?_, hwords⟩
    · exact div_nonneg (div_nonneg hsum0 (le_of_lt hlen)) (by norm_num)
    · rw [div_le_one (by norm_num : (0:ℚ) < 100), div_le_iff₀ hlen]
      linarith [hsumle]
    · field_simp
      ring

/-- C8 witness: the confidences (90, -1, 50) average to 70 over the two
valid tokens, giving 7/10, and a token row with confidence 88 yields 88/100
inside the unit interval. -/
theorem confidence_unit_interval_witness :
    0 ≤ calculate_confidence [90, -1, 50] ∧
    calculate_confidence [90, -1, 50] ≤ 1 ∧
    (([90, -1, 50].filter fun c => decide (0 < c)) = [] →
      calculate_confidence [90, -1, 50] = 0) ∧
    (([90, -1, 50].filter fun c => decide (0 < c)) ≠ [] →
      calculate_confidence [90, -1, 50] *
        ((([90, -1, 50].filter fun c => decide (0 < c)).length : ℕ) : ℚ) * 100 =
        (([90, -1, 50].filter fun c => decide (0 < c)).map
          (Int.cast : ℤ → ℚ)).sum) ∧
    ∀ t ∈ extract_word_data [⟨"hi".toList, 88, 0, 0, 9, 5⟩],
      0 ≤ t.confidence ∧ t.confidence ≤ 1 :=
  confidence_unit_interval [90, -1, 50] [⟨"hi".toList, 88, 0, 0, 9, 5⟩]
    (by decide) (by decide)

/-- Character replacement preserves length. -/
theorem replaceChar_length (a b : Char) (w : W) :
    (replaceChar a b w).length = w.length := List.length_map _ _

/-- Lowercasing preserves length. -/
theorem lowerW_length (w : W) : (lowerW w).length = w.length :=
  List.length_map _ _

/-- The clean word together with the punctuation slice accounts for the
whole word length. -/
theorem mcPunct_length (w : W) :
    (mcClean w).length + (mcPunct w).length = w.length := by
  have hle : (mcClean w).length ≤ w.length := List.length_filter_le _ _
  unfold mcPunct
  split
  · rw [List.length_drop]
    omega
  · simp
    omega

/-- The multi-character pattern rule preserves word length (the table
substitutions are two characters to two characters). -/
theorem multi_char_length (w : W) (ctx : List W) (i : Nat) :
    (disambiguate_multi_char_patterns w ctx i).length = w.length := by
  have hcp := mcPunct_length w
  simp only [disambiguate_multi_char_patterns]
  split
  · rename_i h
    simp only [Bool.and_eq_true, beq_iff_eq] at h
    have hne : mcClean w ≠ [] := by
      intro hnil
      rw [hnil] at h
      simp at h
    have hpos : 0 < (mcClean w).length := List.length_pos.mpr hne
    rw [List.length_append, List.length_append, List.length_dropLast,
      List.length_singleton]
    omega
  · split
    · rename_i h
      simp only [Bool.and_eq_true, beq_iff_eq] at h
      rw [List.length_append]
      have h2 : (mcClean w).length = 2 := by rw [h.1]; rfl
      have : ("11".toList : W).length = 2 := rfl
      omega
    · split
      · rename_i h
        simp only [Bool.and_eq_true, beq_iff_eq] at h
        rw [List.length_append]
        have h2 : (mcClean w).length = 2 := by rw [h.1]; rfl
        have : ("11".toList : W).length = 2 := rfl
        omega
      · split
        · rename_i h
          simp only [Bool.and_eq_true, beq_iff_eq] at h
          rw [List.length_append]
          have h2 : (mcClean w).length = 2 := by rw [h.1]; rfl
          have : ("01".toList : W).length = 2 := rfl
          omega
        · split
          · rename_i h
            simp only [Bool.and_eq_true, beq_iff_eq] at h
            rw [List.length_append]
            have h2 : (mcClean w).length = 2 := by rw [h.1]; rfl
            have : ("10".toList : W).length = 2 := rfl
            omega
          · rfl

/-- The digit-normalization block preserves length. -/
theorem anMutate_length (w : W) : (anMutate w).length = w.length := by
  simp only [anMutate]
  split
  · split <;> simp [replaceChar_length]
  · rfl

/-- The alphanumeric rule preserves word length. -/
theorem alphanumeric_length (w : W) (ctx : List W) :
    (disambiguate_alphanumeric w ctx).length = w.length := by
  simp only [disambiguate_alphanumeric]
  split
  · rfl
  · have hm := anMutate_length w
    split
    · rename_i h
      have hlen1 : (anMutate w).length = 1 := by
        have h3 : lowerW (anMutate w) = ['l'] ∨ lowerW (anMutate w) = ['i'] ∨
            lowerW (anMutate w) = ['o'] := by
          simp only [Bool.and_eq_true, Bool.or_eq_true, beq_iff_eq] at h
          exact or_assoc.mp h.2
        have hl := lowerW_length (anMutate w)
        rcases h3 with h4 | h4 | h4 <;> rw [h4] at hl <;> exact hl.symm
      split
      · simp only [List.length_singleton]
        omega
      · split
        · simp only [List.length_singleton]
          omega
        · split
          · simp only [List.length_singleton]
            omega
          · exact hm
    · exact hm

/-- The variation loop returns either the running best or a member of the
remaining variation list. -/
theorem pickBest_mem (b : W) (s : ℚ) (vs : List W) :
    pickBest b s vs ∈ b :: vs := by
  induction vs generalizing b s with
  | nil => simp [pickBest]
  | cons v vs ih =>
    simp only [pickBest]
    split
    · rcases List.mem_cons.mp (ih v (score_word_likelihood v)) with h | h
      · rw [h]
        exact List.mem_cons_of_mem _ (List.mem_cons_self _ _)
      · exact List.mem_cons_of_mem _ (List.mem_cons_of_mem _ h)
    · rcases List.mem_cons.mp (ih b s) with h | h
      · rw [h]
        exact List.mem_cons_self _ _
      · exact List.mem_cons_of_mem _ (List.mem_cons_of_mem _ h)

/-- Every generated variation has the length of the original word. -/
theorem prefVariations_length (w : W) :
    ∀ v ∈ prefVariations w, v.length = w.length := by
  intro v hv
  unfold prefVariations at hv
  split at hv
  · simp only [List.append_assoc, List.mem_append, List.mem_singleton] at hv
    rcases hv with h | h | h | h
    · subst h; rfl
    · split at h
      · simp only [List.mem_append, List.mem_singleton] at h
        rcases h with h | h
        · subst h; simp [replaceChar_length]
        · split at h
          · simp only [List.mem_singleton] at h
            subst h; simp [replaceChar_length]
          · simp at h
      · simp at h
    · split at h
      · simp only [List.mem_append, List.mem_singleton] at h
        rcases h with h | h
        · subst h; simp [replaceChar_length]
        · split at h
          · simp only [List.mem_singleton] at h
            subst h; simp [replaceChar_length]
          · simp at h
      · simp at h
    · split at h
      · simp only [List.mem_cons, List.mem_singleton] at h
        rcases h with h | h | h
        · subst h; simp [replaceChar_length]
        · subst h; simp [replaceChar_length]
        · simp at h
      · simp at h
  · simp only [List.mem_singleton] at hv
    subst hv; rfl

/-- The English-word-formation preference preserves word length. -/
theorem prefer_length (w : W) :
    (prefer_english_word_formation w).length = w.length := by
  unfold prefer_english_word_formation
  split
  · rfl
  · split
    · rfl
    · rcases List.mem_cons.mp
        (pickBest_mem w (score_word_likelihood w) (prefVariations w)) with h | h
      · rw [h]
      · exact prefVariations_length w _ h

/-- The linguistic rule preserves word length. -/
theorem linguistic_length (w : W) (ctx : List W) (i : Nat) :
    (disambiguate_linguistic_patterns w ctx i).length = w.length := by
  simp only [disambiguate_linguistic_patterns]
  split
  · rename_i h1
    have hl : w.length = 1 := by simpa using h1
    split
    · simp [hl]
    · split
      · simp [hl]
      · split
        · simp [hl]
        · rfl
  · split
    · exact prefer_length w
    · rfl

/-- The positional rule preserves word length. -/
theorem positional_length (w : W) (ctx : List W) (i : Nat) :
    (disambiguate_positional w ctx i).length = w.length := by
  simp only [disambiguate_positional]
  split
  · rename_i h
    have hl : w.length = 1 := by
      simp only [Bool.and_eq_true] at h
      simpa using h.2
    simp [hl]
  · split
    · rename_i h
      have hl : w.length = 1 := by
        simp only [Bool.and_eq_true, Bool.or_eq_true, beq_iff_eq] at h
        have hll := lowerW_length w
        rcases h.1.2 with h4 | h4 <;> rw [h4] at hll <;> exact hll.symm
      simp [hl]
    · rfl

/-- The per-word rule cascade preserves word length. -/
theorem disambiguate_word_length (w : W) (ctx : List W) (i : Nat) :
    (disambiguate_word w ctx i).length = w.length := by
  simp only [disambiguate_word]
  split
  · exact multi_char_length w ctx i
  · rw [positional_length, linguistic_length, alphanumeric_length,
      multi_char_length]

/-- The affix decomposition of a token reassembles to the token. -/
theorem stripCore_append (w : W) :
    (stripCore w).1 ++ (stripCore w).2.1 ++ (stripCore w).2.2 = w := by
  simp only [stripCore]
  rw [List.append_assoc, ← List.reverse_append, List.takeWhile_append_dropWhile,
    List.reverse_reverse, List.takeWhile_append_dropWhile]

/-- The per-token step preserves token length. -/
theorem disambToken_length (all : List W) (i : Nat) (w : W) :
    (disambToken all i w).length = w.length := by
  have hsa := congrArg List.length (stripCore_append w)
  simp only [List.length_append] at hsa
  simp only [disambToken]
  split
  · simp only [List.length_append, disambiguate_word_length]
    omega
  · rfl

/-- The characters a disambiguation rule may introduce. -/
def okChars : W := ['1', '0', 'I', 'l']

/-- Character provenance: every output character is an input character or
one of the introduced disambiguation characters. -/
def charsFrom (src out : W) : Prop := ∀ c ∈ out, c ∈ src ∨ c ∈ okChars

/-- Provenance is reflexive. -/
theorem charsFrom_refl (w : W) : charsFrom w w := fun _ hc => Or.inl hc

/-- Provenance composes. -/
theorem charsFrom_trans {a b c : W} (h1 : charsFrom a b) (h2 : charsFrom b c) :
    charsFrom a c := by
  intro d hd
  rcases h2 d hd with h | h
  · exact h1 d h
  · exact Or.inr h

/-- Provenance from a subset. -/
theorem charsFrom_of_subset {src out : W} (h : ∀ c ∈ out, c ∈ src) :
    charsFrom src out := fun c hc => Or.inl (h c hc)

/-- Provenance of fixed disambiguation characters. -/
theorem charsFrom_of_ok {src out : W} (h : ∀ c ∈ out, c ∈ okChars) :
    charsFrom src out := fun c hc => Or.inr (h c hc)

/-- Provenance distributes over concatenation. -/
theorem charsFrom_append {src a b : W} (ha : charsFrom src a)
    (hb : charsFrom src b) : charsFrom src (a ++ b) := by
  intro c hc
  rcases List.mem_append.mp hc with h | h
  · exact ha c h
  · exact hb c h

/-- Replacement by a disambiguation character preserves provenance. -/
theorem charsFrom_replaceChar (a b : Char) (hb : b ∈ okChars) (w : W) :
    charsFrom w (replaceChar a b w) := by
  intro c hc
  simp only [replaceChar, List.mem_map] at hc
  obtain ⟨d, hd, hcd⟩ := hc
  by_cases h : (d == a) = true
  · rw [if_pos h] at hcd
    exact Or.inr (hcd ▸ hb)
  · rw [if_neg h] at hcd
    exact Or.inl (hcd ▸ hd)

/-- Provenance of the multi-character pattern rule. -/
theorem multi_char_chars (w : W) (ctx : List W) (i : Nat) :
    charsFrom w (disambiguate_multi_char_patterns w ctx i) := by
  have hclean : ∀ c ∈ mcClean w, c ∈ w := fun c hc =>
    (List.mem_filter.mp hc).1
  have hpunct : charsFrom w (mcPunct w) := by
    apply charsFrom_of_subset
    intro c hc
    unfold mcPunct at hc
    split at hc
    · exact List.drop_subset _ _ hc
    · simp at hc
  simp only [disambiguate_multi_char_patterns]
  split
  · refine charsFrom_append (charsFrom_append ?_ ?_) hpunct
    · apply charsFrom_of_subset
      intro c hc
      exact hclean c ((List.dropLast_sublist _).subset hc)
    · exact charsFrom_of_ok (by decide)
  · split
    · exact charsFrom_append (charsFrom_of_ok (by decide)) hpunct
    · split
      · exact charsFrom_append (charsFrom_of_ok (by decide)) hpunct
      · split
        · exact charsFrom_append (charsFrom_of_ok (by decide)) hpunct
        · split
          · exact charsFrom_append (charsFrom_of_ok (by decide)) hpunct
          · exact charsFrom_refl w

/-- Provenance of the digit-normalization block. -/
theorem anMutate_chars (w : W) : charsFrom w (anMutate w) := by
  simp only [anMutate]
  split
  · have h1 : charsFrom w (replaceChar 'l' '1' w) :=
      charsFrom_replaceChar _ _ (by decide) w
    have h2 : charsFrom w (replaceChar 'L' '1' (replaceChar 'l' '1' w)) :=
      charsFrom_trans h1 (charsFrom_replaceChar _ _ (by decide) _)
    split
    · exact charsFrom_trans
        (charsFrom_trans h2 (charsFrom_replaceChar _ _ (by decide) _))
        (charsFrom_replaceChar _ _ (by decide) _)
    · exact charsFrom_trans h2 (charsFrom_replaceChar _ _ (by decide) _)
  · exact charsFrom_refl w

/-- Provenance of the alphanumeric rule. -/
theorem alphanumeric_chars (w : W) (ctx : List W) :
    charsFrom w (disambiguate_alphanumeric w ctx) := by
  simp only [disambiguate_alphanumeric]
  split
  · exact charsFrom_refl w
  · split
    · split
      · exact charsFrom_of_ok (by decide)
      · split
        · exact charsFrom_of_ok (by decide)
        · split
          · exact charsFrom_of_ok (by decide)
          · exact anMutate_chars w
    · exact anMutate_chars w

/-- Provenance of the English-word-formation preference. -/
theorem prefer_chars (w : W) :
    charsFrom w (prefer_english_word_formation w) := by
  have hvar : ∀ v ∈ prefVariations w, charsFrom w v := by
    intro v hv
    unfold prefVariations at hv
    split at hv
    · simp only [List.append_assoc, List.mem_append, List.mem_singleton] at hv
      rcases hv with h | h | h | h
      · subst h; exact charsFrom_refl _
      · split at h
        · simp only [List.mem_append, List.mem_singleton] at h
          rcases h with h | h
          · subst h
            exact charsFrom_trans (charsFrom_replaceChar _ _ (by decide) _)
              (charsFrom_replaceChar _ _ (by decide) _)
          · split at h
            · simp only [List.mem_singleton] at h
              subst h
              exact charsFrom_trans (charsFrom_replaceChar _ _ (by decide) _)
                (charsFrom_replaceChar _ _ (by decide) _)
            · simp at h
        · simp at h
      · split at h
        · simp only [List.mem_append, List.mem_singleton] at h
          rcases h with h | h
          · subst h; exact charsFrom_replaceChar _ _ (by decide) _
          · split at h
            · simp only [List.mem_singleton] at h
              subst h; exact charsFrom_replaceChar _ _ (by decide) _
            · simp at h
        · simp at h
      · split at h
        · simp only [List.mem_cons, List.mem_singleton] at h
          rcases h with h | h | h
          · subst h; exact charsFrom_replaceChar _ _ (by decide) _
          · subst h; exact charsFrom_replaceChar _ _ (by decide) _
          · simp at h
        · simp at h
    · simp only [List.mem_singleton] at hv
      subst hv; exact charsFrom_refl _
  unfold prefer_english_word_formation
  split
  · exact charsFrom_refl w
  · split
    · exact charsFrom_refl w
    · rcases List.mem_cons.mp
        (pickBest_mem w (score_word_likelihood w) (prefVariations w)) with h | h
      · rw [h]; exact charsFrom_refl w
      · exact hvar _ h

/-- Provenance of the linguistic rule. -/
theorem linguistic_chars (w : W) (ctx : List W) (i : Nat) :
    charsFrom w (disambiguate_linguistic_patterns w ctx i) := by
  simp only [disambiguate_linguistic_patterns]
  split
  · split
    · exact charsFrom_of_ok (by decide)
    · split
      · exact charsFrom_of_ok (by decide)
      · split
        · exact charsFrom_of_ok (by decide)
        · exact charsFrom_refl w
  · split
    · exact prefer_chars w
    · exact charsFrom_refl w

/-- Provenance of the positional rule. -/
theorem positional_chars (w : W) (ctx : List W) (i : Nat) :
    charsFrom w (disambiguate_positional w ctx i) := by
  simp only [disambiguate_positional]
  split
  · exact charsFrom_of_ok (by decide)
  · split
    · exact charsFrom_of_ok (by decide)
    · exact charsFrom_refl w

/-- Provenance of the per-word rule cascade. -/
theorem disambiguate_word_chars (w : W) (ctx : List W) (i : Nat) :
    charsFrom w (disambiguate_word w ctx i) := by
  simp only [disambiguate_word]
  split
  · exact multi_char_chars w ctx i
  · exact charsFrom_trans (multi_char_chars w ctx i)
      (charsFrom_trans (alphanumeric_chars _ ctx)
        (charsFrom_trans (linguistic_chars _ ctx i) (positional_chars _ ctx i)))

/-- Provenance of the per-token step. -/
theorem disambToken_chars (all : List W) (i : Nat) (w : W) :
    charsFrom w (disambToken all i w) := by
  have hpre : ∀ c ∈ (stripCore w).1, c ∈ w := by
    intro c hc
    simp only [stripCore] at hc
    exact (List.takeWhile_sublist _).subset hc
  have hrest : ∀ c ∈ w.dropWhile (fun c => !isWordChar c), c ∈ w :=
    fun c hc => (List.dropWhile_sublist _).subset hc
  have hcore : ∀ c ∈ (stripCore w).2.1, c ∈ w := by
    intro c hc
    simp only [stripCore] at hc
    rw [List.mem_reverse] at hc
    exact hrest c (List.mem_reverse.mp ((List.dropWhile_sublist _).subset hc))
  have hsuf : ∀ c ∈ (stripCore w).2.2, c ∈ w := by
    intro c hc
    simp only [stripCore] at hc
    rw [List.mem_reverse] at hc
    exact hrest c (List.mem_reverse.mp ((List.takeWhile_sublist _).subset hc))
  simp only [disambToken]
  split
  · refine charsFrom_append (charsFrom_append ?_ ?_) (charsFrom_of_subset hsuf)
    · exact charsFrom_of_subset hpre
    · exact charsFrom_trans (charsFrom_of_subset hcore)
        (disambiguate_word_chars _ all i)
  · exact charsFrom_refl w

/-- The introduced disambiguation characters are not whitespace. -/
theorem okChars_nonspace : ∀ c ∈ okChars, pyIsSpace c = false := by decide

/-- A provenance-respecting output of a whitespace-free word is
whitespace-free. -/
theorem nonspace_of_charsFrom {src out : W}
    (hsrc : ∀ c ∈ src, pyIsSpace c = false) (h : charsFrom src out) :
    ∀ c ∈ out, pyIsSpace c = false := by
  intro c hc
  rcases h c hc with h1 | h1
  · exact hsrc c h1
  · exact okChars_nonspace c h1

/-- Scanning a whitespace-free block extends the current word. -/
theorem splitWsAux_append_word (w : W) (hw : ∀ c ∈ w, pyIsSpace c = false) :
    ∀ (t cur : W), splitWsAux (w ++ t) cur = splitWsAux t (cur ++ w) := by
  induction w with
  | nil => intro t cur; simp
  | cons c w ih =>
    intro t cur
    have hc : pyIsSpace c = false := hw c (List.mem_cons_self _ _)
    simp only [List.cons_append, splitWsAux, hc, Bool.false_eq_true, if_false]
    show splitWsAux (w ++ t) (cur ++ [c]) = splitWsAux t (cur ++ c :: w)
    rw [ih (fun d hd => hw d (List.mem_cons_of_mem _ hd)) t (cur ++ [c])]
    rw [List.append_assoc, List.singleton_append]

/-- A single whitespace-free non-empty word splits to itself. -/
theorem splitWs_single (w : W) (hw : ∀ c ∈ w, pyIsSpace c = false)
    (hne : w ≠ []) : splitWs w = [w] := by
  have h := splitWsAux_append_word w hw [] []
  rw [List.append_nil] at h
  unfold splitWs
  rw [h]
  simp only [splitWsAux, List.nil_append]
  rw [if_neg (by simpa using hne)]

/-- Splitting a word, a space and a remainder peels off the word. -/
theorem splitWs_cons_word (w : W) (hw : ∀ c ∈ w, pyIsSpace c = false)
    (hne : w ≠ []) (t : W) :
    splitWs (w ++ ' ' :: t) = w :: splitWs t := by
  unfold splitWs
  rw [splitWsAux_append_word w hw (' ' :: t) []]
  simp only [List.nil_append, splitWsAux]
  rw [if_pos (by decide), if_neg (by simpa using hne)]

/-- Splitting the space-joined list of whitespace-free non-empty words
recovers the list. -/
theorem splitWs_joinSp (ws : List W)
    (h : ∀ w ∈ ws, w ≠ [] ∧ ∀ c ∈ w, pyIsSpace c = false) :
    splitWs (joinSp ws) = ws := by
  induction ws with
  | nil => rfl
  | cons w ws ih =>
    cases ws with
    | nil =>
      have hw := h w (List.mem_cons_self _ _)
      simpa [joinSp] using splitWs_single w hw.2 hw.1
    | cons w2 ws2 =>
      have hw := h w (List.mem_cons_self _ _)
      have hstep : joinSp (w :: w2 :: ws2) = w ++ ' ' :: joinSp (w2 :: ws2) :=
        rfl
      rw [hstep, splitWs_cons_word w hw.2 hw.1,
        ih fun x hx => h x (List.mem_cons_of_mem _ hx)]

/-- Every word produced by the split is non-empty and whitespace-free. -/
theorem splitWsAux_good (t : W) :
    ∀ cur, (∀ c ∈ cur, pyIsSpace c = false) →
      ∀ w ∈ splitWsAux t cur, w ≠ [] ∧ ∀ c ∈ w, pyIsSpace c = false := by
  induction t with
  | nil =>
    intro cur hcur w hw
    simp only [splitWsAux] at hw
    split at hw
    · simp at hw
    · rename_i hne
      simp only [List.mem_singleton] at hw
      subst hw
      exact ⟨by simpa using hne, hcur⟩
  | cons c t ih =>
    intro cur hcur w hw
    simp only [splitWsAux] at hw
    split at hw
    · split at hw
      · exact ih [] (by simp) w hw
      · rename_i hne
        rcases List.mem_cons.mp hw with h | h
        · subst h
          exact ⟨by simpa using hne, hcur⟩
        · exact ih [] (by simp) w h
    · rename_i hcs
      refine ih (cur ++ [c]) ?_ w hw
      intro d hd
      rcases List.mem_append.mp hd with h | h
      · exact hcur d h
      · simp only [List.mem_singleton] at h
        subst h
        simpa using hcs

/-- The enumerated token loop preserves the number of words. -/
theorem disambWords_length (all : List W) :
    ∀ (ws : List W) (i : Nat), (disambWords all i ws).length = ws.length := by
  intro ws
  induction ws with
  | nil => intro i; rfl
  | cons w ws ih => intro i; simp [disambWords, ih]

/-- Positional description of the enumerated token loop. -/
theorem disambWords_getD (all : List W) :
    ∀ (ws : List W) (i j : Nat),
      (disambWords all i ws).getD j [] =
        if j < ws.length then disambToken all (i + j) (ws.getD j [])
        else [] := by
  intro ws
  induction ws with
  | nil => intro i j; simp [disambWords]
  | cons w ws ih =>
    intro i j
    cases j with
    | zero => simp [disambWords]
    | succ j' =>
      simp only [disambWords, List.getD_cons_succ]
      rw [ih (i+1) j']
      by_cases hj : j' < ws.length
      · rw [if_pos hj, if_pos (by simpa using Nat.succ_lt_succ hj)]
        congr 1
        omega
      · rw [if_neg hj, if_neg (by simpa using fun h => hj (Nat.lt_of_succ_lt_succ h))]

/-- Every word of the enumerated token loop is the token step of some input
word at some index. -/
theorem disambWords_mem (all : List W) :
    ∀ (ws : List W) (i : Nat) (v : W), v ∈ disambWords all i ws →
      ∃ j w, w ∈ ws ∧ v = disambToken all j w := by
  intro ws
  induction ws with
  | nil => intro i v hv; simp [disambWords] at hv
  | cons w ws ih =>
    intro i v hv
    simp only [disambWords, List.mem_cons] at hv
    rcases hv with h | h
    · exact ⟨i, w, List.mem_cons_self _ _, h⟩
    · obtain ⟨j, w', hw', hv'⟩ := ih (i+1) v h
      exact ⟨j, w', List.mem_cons_of_mem _ hw', hv'⟩

/-- The word list of the disambiguated text is exactly the token loop
applied to the word list of the input text. -/
theorem intelligent_splitWs (text : W) :
    splitWs (intelligent_character_disambiguation text) =
      disambWords (splitWs text) 0 (splitWs text) := by
  by_cases ht : text = []
  · subst ht; rfl
  · by_cases hws : splitWs text = []
    · simp only [intelligent_character_disambiguation]
      rw [if_neg (by simpa using ht), if_pos (by simpa using hws), hws]
      rfl
    · have hgood : ∀ w ∈ splitWs text,
          w ≠ [] ∧ ∀ c ∈ w, pyIsSpace c = false :=
        fun w hw => splitWsAux_good text [] (by simp) w hw
      have hgood2 : ∀ v ∈ disambWords (splitWs text) 0 (splitWs text),
          v ≠ [] ∧ ∀ c ∈ v, pyIsSpace c = false := by
        intro v hv
        obtain ⟨j, w, hw, rfl⟩ := disambWords_mem _ _ _ _ hv
        obtain ⟨hwne, hwns⟩ := hgood w hw
        constructor
        · intro hnil
          have hlen := disambToken_length (splitWs text) j w
          rw [hnil] at hlen
          exact hwne (List.length_eq_zero.mp hlen.symm)
        · exact nonspace_of_charsFrom hwns (disambToken_chars _ j w)
      simp only [intelligent_character_disambiguation]
      rw [if_neg (by simpa using ht), if_neg (by simpa using hws)]
      exact splitWs_joinSp _ hgood2

/-- C3: the character disambiguator preserves the number and order of words
(the word list of the output aligns index-by-index with the input) and the
character count of every word, and each of the four rules, including the
multi-character table substitutions, preserves word length. -/
theorem disambiguator_preserves_words (text : W) :
    (splitWs (intelligent_character_disambiguation text)).length =
      (splitWs text).length ∧
    (∀ j : Nat,
      ((splitWs (intelligent_character_disambiguation text)).getD j []).length =
        ((splitWs text).getD j []).length) ∧
    (∀ (w : W) (ctx : List W) (i : Nat),
      (disambiguate_multi_char_patterns w ctx i).length = w.length ∧
      (disambiguate_alphanumeric w ctx).length = w.length ∧
      (disambiguate_linguistic_patterns w ctx i).length = w.length ∧
      (disambiguate_positional w ctx i).length = w.length) := by
  have hkey := intelligent_splitWs text
  refine ⟨?_, ?_, fun w ctx i =>
    ⟨multi_char_length w ctx i, alphanumeric_length w ctx,
     linguistic_length w ctx i, positional_length w ctx i⟩⟩
  · rw [hkey, disambWords_length]
  · intro j
    rw [hkey, disambWords_getD]
    by_cases hj : j < (splitWs text).length
    · rw [if_pos hj, disambToken_length]
    · rw [if_neg hj, List.getD_eq_default _ _ (le_of_not_lt hj)]

/-- C4 (amended): the output token is always the input token's leading
non-word run, then a transformed core of the same length, then the input
token's trailing non-word run; the leading and trailing non-word affixes
are reattached unchanged, but non-word characters strictly inside the core
are not always preserved. -/
theorem token_affixes_reattached (text : W) (all : List W) (i : Nat) (w : W) :
    (∃ core2 : W, core2.length = (stripCore w).2.1.length ∧
      disambToken all i w =
        (stripCore w).1 ++ core2 ++ (stripCore w).2.2) ∧
    ∀ j : Nat, ∃ core2 : W,
      core2.length = (stripCore ((splitWs text).getD j [])).2.1.length ∧
      (splitWs (intelligent_character_disambiguation text)).getD j [] =
        (stripCore ((splitWs text).getD j [])).1 ++ core2 ++
          (stripCore ((splitWs text).getD j [])).2.2 := by
  have hone : ∀ (all2 : List W) (i2 : Nat) (w2 : W), ∃ core2 : W,
      core2.length = (stripCore w2).2.1.length ∧
      disambToken all2 i2 w2 =
        (stripCore w2).1 ++ core2 ++ (stripCore w2).2.2 := by
    intro all2 i2 w2
    simp only [disambToken]
    split
    · exact ⟨disambiguate_word (stripCore w2).2.1 all2 i2,
        disambiguate_word_length _ all2 i2, rfl⟩
    · rename_i h
      have hc : (stripCore w2).2.1 = [] := by simpa using h
      refine ⟨[], by rw [hc], ?_⟩
      have hsa := stripCore_append w2
      rw [hc] at hsa
      exact hsa.symm
  refine ⟨hone all i w, ?_⟩
  intro j
  rw [intelligent_splitWs, disambWords_getD]
  by_cases hj : j < (splitWs text).length
  · rw [if_pos hj]
    exact hone (splitWs text) (0 + j) ((splitWs text).getD j [])
  · rw [if_neg hj, List.getD_eq_default _ _ (le_of_not_lt hj)]
    exact ⟨[], by simp [stripCore], by simp [stripCore]⟩
